import Mathlib

/-!
Verification of the `ascb` algebra library: core algebraic traits
(`Semigroup`/`Monoid` with `op`/`zero`), the generic `power_semigroup`
square-and-multiply routine, the `Gaussian` online moment accumulator
(Welford fold, Chan merge), and the `HashMap` semigroup instance.

The Rust `f64` fields of `Gaussian` are modelled as exact rationals `ℚ`:
every arithmetic operation the claims exercise is a field operation, and
the concrete sample values appearing in the claims are dyadic rationals on
which `f64` arithmetic is exact.  Rust panics (`assert!`) are modelled as
`Option.none`.
-/

namespace Ascb

/-- The 1D Gaussian moment accumulator: first moment `m1`, second central
moment `m2`, and the (float-stored) sample count `n`, as in
`src/gaussian.rs`. -/
@[ext]
structure Gaussian where
  m1 : ℚ
  m2 : ℚ
  n : ℚ
deriving DecidableEq, Repr

/-- Tolerance comparison in the style of numpy.isclose, from `_close` in
`src/gaussian.rs`: `(x - y).abs() <= 1e-8 + 1e-5 * y.abs()`. -/
def Gaussian.close (x y : ℚ) : Prop :=
  |x - y| ≤ 1e-8 + 1e-5 * |y|

instance : DecidablePred fun p : ℚ × ℚ => Gaussian.close p.1 p.2 :=
  fun _ => inferInstanceAs (Decidable (_ ≤ _))

instance (x y : ℚ) : Decidable (Gaussian.close x y) :=
  inferInstanceAs (Decidable (_ ≤ _))

/-- Rust `PartialEq for Gaussian`: exact equality of counts, tolerance equality
of the two moments. -/
def Gaussian.eq (a b : Gaussian) : Prop :=
  a.n = b.n ∧ Gaussian.close a.m1 b.m1 ∧ Gaussian.close a.m2 b.m2

instance (a b : Gaussian) : Decidable (Gaussian.eq a b) :=
  inferInstanceAs (Decidable (_ ∧ _ ∧ _))

/-- Rust `Default for Gaussian`: the canonical empty accumulator. -/
def Gaussian.empty : Gaussian := ⟨0, 0, 0⟩

/-- Rust `Gaussian::new`: accumulator of a single data point. -/
def Gaussian.new (x : ℚ) : Gaussian := ⟨x, 0, 1⟩

/-- Rust `Gaussian::mean`. -/
def Gaussian.mean (g : Gaussian) : ℚ := g.m1

/-- Rust `Gaussian::variance`: `assert!(n > 1.0)` then `m2 / (n - 1.0)`.  The
panic on `n <= 1` is modelled as `none`. -/
def Gaussian.variance (g : Gaussian) : Option ℚ :=
  if 1 < g.n then some (g.m2 / (g.n - 1)) else none

/-- Rust `Add<f64> for Gaussian`: Welford's incremental update, pure version. -/
def Gaussian.add (g : Gaussian) (x : ℚ) : Gaussian :=
  let n := g.n + 1
  let m1 := g.m1 + (x - g.m1) / n
  let m2 := g.m2 + (x - g.m1) * (x - m1)
  ⟨m1, m2, n⟩

/-- Rust `AddAssign<f64> for Gaussian`: Welford's incremental update as the
in-place mutation, written with the same intermediate-value order as the
Rust (`n` first, then `m1` from the saved old mean, then `m2` from the
old and the new mean). -/
def Gaussian.addAssign (g : Gaussian) (x : ℚ) : Gaussian :=
  let n := g.n + 1
  let m1_old := g.m1
  let m1 := g.m1 + (x - m1_old) / n
  let m2 := g.m2 + (x - m1_old) * (x - m1)
  ⟨m1, m2, n⟩

/-- Rust `Semigroup for Gaussian`: Chan's parallel merge. -/
def Gaussian.op (a b : Gaussian) : Gaussian :=
  let n := a.n + b.n
  if n = 0 then Gaussian.empty
  else
    { m1 := a.m1 * (a.n / n) + b.m1 * (b.n / n)
      m2 := a.m2 + b.m2 + (a.m1 - b.m1) ^ 2 * (a.n * b.n) / n
      n := n }

/-- Rust `FromIterator<f64> for Gaussian`: fold the samples one at a time into
a fresh accumulator with `+=`. -/
def Gaussian.fromList (xs : List ℚ) : Gaussian :=
  xs.foldl Gaussian.addAssign Gaussian.empty

/-- The representation invariant every publicly constructible accumulator
satisfies: nonnegative count, and the empty count is the canonical
all-zero value. -/
def Gaussian.Inv (g : Gaussian) : Prop :=
  0 ≤ g.n ∧ (g.n = 0 → g.m1 = 0 ∧ g.m2 = 0)

/-- Rust `Monoid for Gaussian`: `zero()` is `Self::default()`. -/
def Gaussian.zero : Gaussian := Gaussian.empty

theorem Gaussian.inv_empty : Gaussian.empty.Inv :=
  ⟨le_refl 0, fun _ => ⟨rfl, rfl⟩⟩

theorem Gaussian.eq_empty_of_n_eq_zero (a : Gaussian) (h : a.Inv) (h0 : a.n = 0) :
    a = Gaussian.empty := by
  obtain ⟨-, hz⟩ := h
  obtain ⟨h1, h2⟩ := hz h0
  ext <;> simp [Gaussian.empty, h0, h1, h2]

theorem Gaussian.op_empty_left (a : Gaussian) (h : a.Inv) : Gaussian.empty.op a = a := by
  by_cases h0 : a.n = 0
  · rw [a.eq_empty_of_n_eq_zero h h0]
    simp [Gaussian.op, Gaussian.empty]
  · unfold Gaussian.op
    rw [if_neg (by simpa [Gaussian.empty] using h0)]
    ext <;> simp [Gaussian.empty, div_self h0]

theorem Gaussian.op_empty_right (a : Gaussian) (h : a.Inv) : a.op Gaussian.empty = a := by
  by_cases h0 : a.n = 0
  · rw [a.eq_empty_of_n_eq_zero h h0]
    simp [Gaussian.op, Gaussian.empty]
  · unfold Gaussian.op
    rw [if_neg (by simpa [Gaussian.empty] using h0)]
    ext <;> simp [Gaussian.empty, div_self h0]

theorem Gaussian.op_n (a b : Gaussian) : (a.op b).n = a.n + b.n := by
  simp only [Gaussian.op]
  by_cases h : a.n + b.n = 0
  · rw [if_pos h]
    simpa [Gaussian.empty] using h.symm
  · rw [if_neg h]

theorem Gaussian.inv_op (a b : Gaussian) (ha : a.Inv) (hb : b.Inv) : (a.op b).Inv := by
  simp only [Gaussian.op]
  by_cases h : a.n + b.n = 0
  · rw [if_pos h]
    exact Gaussian.inv_empty
  · rw [if_neg h]
    exact ⟨add_nonneg ha.1 hb.1, fun hz => absurd hz h⟩

theorem Gaussian.inv_new (x : ℚ) : (Gaussian.new x).Inv :=
  ⟨by norm_num [Gaussian.new], fun h => by norm_num [Gaussian.new] at h⟩

theorem Gaussian.inv_add (g : Gaussian) (x : ℚ) (h : 0 ≤ g.n) : (g.add x).Inv := by
  constructor
  · simp only [Gaussian.add]
    linarith
  · intro hz
    simp only [Gaussian.add] at hz
    linarith

/-- First sufficient statistic: the (weighted) sum of the samples. -/
def Gaussian.s1 (g : Gaussian) : ℚ := g.n * g.m1

/-- Second sufficient statistic: the raw sum of squares of the samples. -/
def Gaussian.q2 (g : Gaussian) : ℚ := g.m2 + g.n * g.m1 ^ 2

theorem Gaussian.s1_op (a b : Gaussian) (ha : a.Inv) (hb : b.Inv) :
    (a.op b).s1 = a.s1 + b.s1 := by
  simp only [Gaussian.op]
  by_cases h : a.n + b.n = 0
  · have ha0 : a.n = 0 := by linarith [ha.1, hb.1]
    have hb0 : b.n = 0 := by linarith [ha.1, hb.1]
    rw [if_pos h]
    simp [Gaussian.s1, Gaussian.empty, ha0, hb0]
  · rw [if_neg h]
    simp only [Gaussian.s1]
    field_simp
    ring

theorem Gaussian.q2_op (a b : Gaussian) (ha : a.Inv) (hb : b.Inv) :
    (a.op b).q2 = a.q2 + b.q2 := by
  simp only [Gaussian.op]
  by_cases h : a.n + b.n = 0
  · have ha0 : a.n = 0 := by linarith [ha.1, hb.1]
    have hb0 : b.n = 0 := by linarith [ha.1, hb.1]
    obtain ⟨-, ha2⟩ := (ha.2 ha0)
    obtain ⟨-, hb2⟩ := (hb.2 hb0)
    rw [if_pos h]
    simp [Gaussian.q2, Gaussian.empty, ha0, hb0, ha2, hb2]
  · rw [if_neg h]
    simp only [Gaussian.q2]
    field_simp
    ring

theorem Gaussian.ext_stats (a b : Gaussian) (ha : a.Inv) (hb : b.Inv)
    (hn : a.n = b.n) (h1 : a.s1 = b.s1) (h2 : a.q2 = b.q2) : a = b := by
  by_cases h0 : a.n = 0
  · rw [a.eq_empty_of_n_eq_zero ha h0, b.eq_empty_of_n_eq_zero hb (hn ▸ h0)]
  · have hbn : b.n ≠ 0 := hn ▸ h0
    unfold Gaussian.s1 at h1
    rw [hn] at h1
    have hm1 : a.m1 = b.m1 := mul_left_cancel₀ hbn h1
    unfold Gaussian.q2 at h2
    rw [hn, hm1] at h2
    have hm2 : a.m2 = b.m2 := by linarith
    ext
    · exact hm1
    · exact hm2
    · exact hn

theorem Gaussian.op_assoc (a b c : Gaussian) (ha : a.Inv) (hb : b.Inv) (hc : c.Inv) :
    (a.op b).op c = a.op (b.op c) := by
  have hab := a.inv_op b ha hb
  have hbc := b.inv_op c hb hc
  refine Gaussian.ext_stats _ _ ((a.op b).inv_op c hab hc) (a.inv_op _ ha hbc) ?_ ?_ ?_
  · rw [Gaussian.op_n, Gaussian.op_n, Gaussian.op_n, Gaussian.op_n]
    ring
  · rw [Gaussian.s1_op _ _ hab hc, Gaussian.s1_op _ _ ha hb,
      Gaussian.s1_op _ _ ha hbc, Gaussian.s1_op _ _ hb hc]
    ring
  · rw [Gaussian.q2_op _ _ hab hc, Gaussian.q2_op _ _ ha hb,
      Gaussian.q2_op _ _ ha hbc, Gaussian.q2_op _ _ hb hc]
    ring

theorem Gaussian.op_comm (a b : Gaussian) : a.op b = b.op a := by
  simp only [Gaussian.op]
  rw [add_comm b.n a.n]
  by_cases h : a.n + b.n = 0
  · rw [if_pos h, if_pos h]
  · rw [if_neg h, if_neg h]
    ext
    · ring
    · ring
    · rfl

/-- Claim C3: `Semigroup::op` on Gaussians returns the canonical empty value
when the combined count is zero; otherwise it returns the weighted mean
`ma*(na/n) + mb*(nb/n)`, Chan's combined second moment
`sa + sb + (ma - mb)^2 * (na*nb)/n`, and count `na + nb`. -/
theorem Gaussian.op_spec (a b : Gaussian) :
    (a.n + b.n = 0 → a.op b = Gaussian.empty) ∧
    (a.n + b.n ≠ 0 →
      a.op b = ⟨a.m1 * (a.n / (a.n + b.n)) + b.m1 * (b.n / (a.n + b.n)),
                a.m2 + b.m2 + (a.m1 - b.m1) ^ 2 * (a.n * b.n) / (a.n + b.n),
                a.n + b.n⟩) := by
  constructor <;> intro h <;> simp [Gaussian.op, h]

theorem Gaussian.op_spec_witness :
    Gaussian.op ⟨0, 0, 1⟩ ⟨2, 0, 1⟩ =
      ⟨(0 : ℚ) * (1 / (1 + 1)) + 2 * (1 / (1 + 1)),
       0 + 0 + ((0 : ℚ) - 2) ^ 2 * (1 * 1) / (1 + 1), 1 + 1⟩ :=
  (Gaussian.op_spec ⟨0, 0, 1⟩ ⟨2, 0, 1⟩).2 (by norm_num)

/-- Claim C4: Folding `[1.0, 2.0, 3.0, 4.0]` sequentially yields exactly
`count=4, mean=2.5, m2=5.0`; the two halves yield `(2, 1.5, 0.5)` and
`(2, 3.5, 0.5)`, and their merge reproduces `count=4, mean=2.5, m2=5.0`
exactly. -/
theorem Gaussian.concrete_fold_merge :
    Gaussian.fromList [1, 2, 3, 4] = ⟨5/2, 5, 4⟩ ∧
    Gaussian.fromList [1, 2] = ⟨3/2, 1/2, 2⟩ ∧
    Gaussian.fromList [3, 4] = ⟨7/2, 1/2, 2⟩ ∧
    Gaussian.op ⟨3/2, 1/2, 2⟩ ⟨7/2, 1/2, 2⟩ = ⟨5/2, 5, 4⟩ := by
  refine ⟨?_, ?_, ?_, ?_⟩ <;>
    simp only [Gaussian.fromList, Gaussian.addAssign, Gaussian.empty, List.foldl,
      Gaussian.op] <;>
    norm_num

/-- Claim C5: `variance()` fails (panics, modelled as `none`) exactly when
`count <= 1`, and returns `m2 / (count - 1)` when `count > 1`. -/
theorem Gaussian.variance_spec (g : Gaussian) :
    (g.n ≤ 1 → g.variance = none) ∧
    (1 < g.n → g.variance = some (g.m2 / (g.n - 1))) := by
  constructor <;> intro h
  · simp [Gaussian.variance, not_lt.mpr h]
  · simp [Gaussian.variance, h]

theorem Gaussian.variance_spec_witness :
    (Gaussian.mk 0 0 1).variance = none ∧
    (Gaussian.mk 0 5 3).variance = some (5 / 2) := by
  constructor
  · exact (Gaussian.variance_spec ⟨0, 0, 1⟩).1 (by norm_num)
  · rw [(Gaussian.variance_spec ⟨0, 5, 3⟩).2 (by norm_num)]
    norm_num

/-- Claim C7: The pure fold (`Add`) and the in-place fold (`AddAssign`)
agree on every field. -/
theorem Gaussian.add_eq_addAssign (g : Gaussian) (x : ℚ) :
    g.add x = g.addAssign x := rfl

theorem Gaussian.addAssign_def : Gaussian.addAssign = Gaussian.add := rfl

theorem Gaussian.fromList_eq_foldl (xs : List ℚ) :
    Gaussian.fromList xs = xs.foldl Gaussian.add Gaussian.empty := rfl

theorem Gaussian.inv_foldl (xs : List ℚ) (g : Gaussian) (h : g.Inv) :
    (xs.foldl Gaussian.add g).Inv := by
  induction xs generalizing g with
  | nil => exact h
  | cons x xs ih => exact ih _ (g.inv_add x h.1)

theorem Gaussian.inv_fromList (xs : List ℚ) : (Gaussian.fromList xs).Inv :=
  Gaussian.inv_foldl xs Gaussian.empty Gaussian.inv_empty

theorem Gaussian.add_eq_op_new (g : Gaussian) (x : ℚ) (h : 0 ≤ g.n) :
    g.add x = g.op (Gaussian.new x) := by
  have hn : g.n + 1 ≠ 0 := by linarith
  simp only [Gaussian.op, Gaussian.new, Gaussian.add]
  rw [if_neg hn]
  ext
  · field_simp
    ring
  · field_simp
    ring
  · rfl

theorem Gaussian.empty_add (x : ℚ) : Gaussian.empty.add x = Gaussian.new x := by
  ext <;> norm_num [Gaussian.add, Gaussian.empty, Gaussian.new]

theorem Gaussian.foldl_add_op (xs : List ℚ) (g : Gaussian) (h : g.Inv) :
    xs.foldl Gaussian.add g = g.op (Gaussian.fromList xs) := by
  induction xs generalizing g with
  | nil =>
    simpa [Gaussian.fromList] using (g.op_empty_right h).symm
  | cons x xs ih =>
    have hg : (g.add x).Inv := g.inv_add x h.1
    have hcons : Gaussian.fromList (x :: xs) = xs.foldl Gaussian.add (Gaussian.new x) := by
      rw [Gaussian.fromList_eq_foldl, List.foldl_cons, Gaussian.empty_add]
    rw [List.foldl_cons, ih _ hg, hcons, ih _ (Gaussian.inv_new x),
      g.add_eq_op_new x h.1,
      Gaussian.op_assoc g _ _ h (Gaussian.inv_new x) (Gaussian.inv_fromList xs)]

theorem Gaussian.fromList_cons (x : ℚ) (xs : List ℚ) :
    Gaussian.fromList (x :: xs) = (Gaussian.new x).op (Gaussian.fromList xs) := by
  rw [Gaussian.fromList_eq_foldl, List.foldl_cons, Gaussian.empty_add,
    Gaussian.foldl_add_op xs _ (Gaussian.inv_new x)]

theorem Gaussian.fromList_append (l1 l2 : List ℚ) :
    Gaussian.fromList (l1 ++ l2) =
      (Gaussian.fromList l1).op (Gaussian.fromList l2) := by
  rw [Gaussian.fromList_eq_foldl, List.foldl_append, ← Gaussian.fromList_eq_foldl,
    Gaussian.foldl_add_op l2 _ (Gaussian.inv_fromList l1)]

theorem Gaussian.fromList_perm {xs ys : List ℚ} (h : xs.Perm ys) :
    Gaussian.fromList xs = Gaussian.fromList ys := by
  induction h with
  | nil => rfl
  | cons x h ih => rw [Gaussian.fromList_cons, Gaussian.fromList_cons, ih]
  | swap x y l =>
    rw [Gaussian.fromList_cons, Gaussian.fromList_cons, Gaussian.fromList_cons,
      Gaussian.fromList_cons,
      ← Gaussian.op_assoc _ _ _ (Gaussian.inv_new y) (Gaussian.inv_new x)
        (Gaussian.inv_fromList l),
      Gaussian.op_comm (Gaussian.new y) (Gaussian.new x),
      Gaussian.op_assoc _ _ _ (Gaussian.inv_new x) (Gaussian.inv_new y)
        (Gaussian.inv_fromList l)]
  | trans _ _ ih1 ih2 => rw [ih1, ih2]

theorem Gaussian.eq_of_eq (a b : Gaussian) (h : a = b) : Gaussian.eq a b := by
  subst h
  refine ⟨rfl, ?_, ?_⟩ <;>
    · unfold Gaussian.close
      rw [sub_self, abs_zero]
      positivity

/-- A merge tree over chunks of samples: each leaf is a chunk accumulated
independently by the sequential fold; each inner node merges two partial
accumulators with `Semigroup::op`.  A tree expresses one arbitrary
grouping/order of merging the partial accumulators. -/
inductive MTree where
  | leaf : List ℚ → MTree
  | node : MTree → MTree → MTree

/-- Accumulate a merge tree: fold each chunk, then merge along the tree. -/
def MTree.eval : MTree → Gaussian
  | .leaf l => Gaussian.fromList l
  | .node t u => t.eval.op u.eval

/-- All samples of a merge tree, in left-to-right order. -/
def MTree.samples : MTree → List ℚ
  | .leaf l => l
  | .node t u => t.samples ++ u.samples

theorem MTree.eval_eq (t : MTree) : t.eval = Gaussian.fromList t.samples := by
  induction t with
  | leaf l => rfl
  | node t u iht ihu =>
    simp only [MTree.eval, MTree.samples]
    rw [Gaussian.fromList_append, iht, ihu]

/-- Claim C2: The Gaussian merge is associative (on accumulators satisfying
the representation invariant), and accumulating arbitrary chunks of a
sequence independently and merging the partial accumulators in any order
or grouping is tolerance-equal (here even exactly equal, as the model uses
exact arithmetic) to folding every sample sequentially. -/
theorem Gaussian.merge_correct :
    (∀ a b c : Gaussian, a.Inv → b.Inv → c.Inv → (a.op b).op c = a.op (b.op c)) ∧
    (∀ (t : MTree) (xs : List ℚ), t.samples.Perm xs →
      Gaussian.eq t.eval (Gaussian.fromList xs)) := by
  refine ⟨fun a b c ha hb hc => Gaussian.op_assoc a b c ha hb hc, fun t xs h => ?_⟩
  exact Gaussian.eq_of_eq _ _ (by rw [MTree.eval_eq, Gaussian.fromList_perm h])

theorem Gaussian.merge_correct_witness :
    Gaussian.eq (MTree.eval (.node (.leaf [1, 2]) (.leaf [3, 4])))
      (Gaussian.fromList [3, 4, 1, 2]) :=
  Gaussian.merge_correct.2 (.node (.leaf [1, 2]) (.leaf [3, 4])) [3, 4, 1, 2]
    (by decide)

/-- Claim C6: Merging the identity `zero()` with any accumulator, on either
side, returns that accumulator field-for-field. -/
theorem Gaussian.merge_identity (a : Gaussian) (h : a.Inv) :
    Gaussian.zero.op a = a ∧ a.op Gaussian.zero = a :=
  ⟨a.op_empty_left h, a.op_empty_right h⟩

theorem Gaussian.merge_identity_witness :
    Gaussian.zero.op ⟨2, 3, 5⟩ = ⟨2, 3, 5⟩ ∧
    Gaussian.op ⟨2, 3, 5⟩ Gaussian.zero = ⟨2, 3, 5⟩ := by
  have hinv : Gaussian.Inv ⟨2, 3, 5⟩ := by
    constructor
    · norm_num
    · intro h
      norm_num at h
  exact Gaussian.merge_identity _ hinv

/-- Accumulators reachable through the public constructors and
operations: `default`/`zero`, `new`, folding in a sample, merging. -/
inductive Gaussian.Reachable : Gaussian → Prop
  | empty : Gaussian.Reachable Gaussian.empty
  | new (x : ℚ) : Gaussian.Reachable (Gaussian.new x)
  | add (g : Gaussian) (x : ℚ) : Gaussian.Reachable g → Gaussian.Reachable (g.add x)
  | op (a b : Gaussian) : Gaussian.Reachable a → Gaussian.Reachable b →
      Gaussian.Reachable (a.op b)

theorem Gaussian.m2_add_nonneg (g : Gaussian) (x : ℚ) (hn : 0 ≤ g.n)
    (hm : 0 ≤ g.m2) : 0 ≤ (g.add x).m2 := by
  have h1 : g.n + 1 ≠ 0 := by linarith
  have key : (g.add x).m2 = g.m2 + (x - g.m1) ^ 2 * (g.n / (g.n + 1)) := by
    simp only [Gaussian.add]
    field_simp
    ring
  rw [key]
  have : (0:ℚ) ≤ (x - g.m1) ^ 2 * (g.n / (g.n + 1)) :=
    mul_nonneg (sq_nonneg _) (div_nonneg hn (by linarith))
  linarith

theorem Gaussian.m2_op_nonneg (a b : Gaussian) (ha : a.Inv) (hb : b.Inv)
    (h2a : 0 ≤ a.m2) (h2b : 0 ≤ b.m2) : 0 ≤ (a.op b).m2 := by
  simp only [Gaussian.op]
  by_cases h : a.n + b.n = 0
  · rw [if_pos h]
    norm_num [Gaussian.empty]
  · rw [if_neg h]
    have hpos : 0 ≤ a.n + b.n := add_nonneg ha.1 hb.1
    have : (0:ℚ) ≤ (a.m1 - b.m1) ^ 2 * (a.n * b.n) / (a.n + b.n) :=
      div_nonneg (mul_nonneg (sq_nonneg _) (mul_nonneg ha.1 hb.1)) hpos
    show 0 ≤ a.m2 + b.m2 + (a.m1 - b.m1) ^ 2 * (a.n * b.n) / (a.n + b.n)
    linarith

theorem Gaussian.reachable_inv (g : Gaussian) (h : g.Reachable) :
    g.Inv ∧ 0 ≤ g.m2 := by
  induction h with
  | empty => exact ⟨Gaussian.inv_empty, le_refl 0⟩
  | new x => exact ⟨Gaussian.inv_new x, le_refl 0⟩
  | add g x _ ih =>
    exact ⟨g.inv_add x ih.1.1, g.m2_add_nonneg x ih.1.1 ih.2⟩
  | op a b _ _ iha ihb =>
    exact ⟨a.inv_op b iha.1 ihb.1, a.m2_op_nonneg b iha.1 ihb.1 iha.2 ihb.2⟩

/-- Claim C8: Every accumulator reachable through the public constructors
and operations has a nonnegative count, is the canonical all-zero value
when the count is zero, and has a nonnegative `m2` when the count is at
least one. -/
theorem Gaussian.reachable_invariant (g : Gaussian) (h : g.Reachable) :
    0 ≤ g.n ∧ (g.n = 0 → g.m1 = 0 ∧ g.m2 = 0) ∧ (1 ≤ g.n → 0 ≤ g.m2) := by
  obtain ⟨⟨h1, h2⟩, h3⟩ := Gaussian.reachable_inv g h
  exact ⟨h1, h2, fun _ => h3⟩

theorem Gaussian.reachable_invariant_witness :
    0 ≤ ((Gaussian.new 2).add 3).n ∧
    (((Gaussian.new 2).add 3).n = 0 →
      ((Gaussian.new 2).add 3).m1 = 0 ∧ ((Gaussian.new 2).add 3).m2 = 0) ∧
    (1 ≤ ((Gaussian.new 2).add 3).n → 0 ≤ ((Gaussian.new 2).add 3).m2) :=
  Gaussian.reachable_invariant _ (Gaussian.Reachable.add _ 3 (Gaussian.Reachable.new 2))

/-- Claim C10: The Gaussian tolerance comparison is
`|x - y| ≤ 1e-8 + 1e-5 * |y|`, scaled by the second operand only, and the
resulting `PartialEq` is not symmetric: there are accumulators with equal
counts where `a == b` holds but `b == a` fails. -/
theorem Gaussian.eq_not_symmetric :
    (∀ x y : ℚ, Gaussian.close x y ↔ |x - y| ≤ 1e-8 + 1e-5 * |y|) ∧
    (∃ a b : Gaussian, a.n = b.n ∧ Gaussian.eq a b ∧ ¬Gaussian.eq b a) := by
  refine ⟨fun x y => Iff.rfl, ⟨0, 0, 1⟩, ⟨1000005 / 10 ^ 14, 0, 1⟩, rfl, ?_, ?_⟩
  · refine ⟨rfl, ?_, ?_⟩ <;> unfold Gaussian.close <;>
      norm_num [abs_of_nonneg, abs_of_nonpos]
  · rintro ⟨-, hc, -⟩
    revert hc
    unfold Gaussian.close
    norm_num [abs_of_nonneg, abs_of_nonpos]

/-! ## The generic power operator (`src/traits.rs`) -/

/-- The loop of `power_semigroup` from `src/traits.rs`, generic over the
binary operation: `let mut y = x; let mut m = n; while m > 1 { if m & 1
== 1 { y = op(y, x) }; y = op(y, y); m >>= 1 }; y`. -/
def powerLoop {S : Type} (op : S → S → S) (x y : S) (m : ℕ) : S :=
  if 1 < m then
    powerLoop op x (let y1 := if m % 2 = 1 then op y x else y; op y1 y1) (m / 2)
  else y
termination_by m
decreasing_by exact Nat.div_lt_self (by omega) (by omega)

/-- Rust `power_semigroup` from `src/traits.rs` (`n : NonZeroU64` is modelled
as a natural number, positive at every use). -/
def power_semigroup {S : Type} (op : S → S → S) (x : S) (n : ℕ) : S :=
  powerLoop op x x n

/-- The specification-side meaning of the power operator, following the
spec's words: the left-to-right fold of `op` over `n` copies of `x`
(`x` itself for `n = 1`). -/
def specFoldCopies {S : Type} (op : S → S → S) (x : S) (n : ℕ) : S :=
  (List.replicate (n - 1) x).foldl op x

/-- Claim C1: The claimed power property fails on the code: with the
associative operation `Nat.add` and `x = 1`, `power_semigroup` at `n = 3`
returns `4` (the loop folds `x` in *before* squaring while reading the
bits of `n` LSB-first, so it computes `op(op(x,x),op(x,x))`), while the
left-to-right fold of `op` over three copies of `x` is `3`. -/
theorem power_semigroup_bug :
    power_semigroup Nat.add 1 3 = 4 ∧ specFoldCopies Nat.add 1 3 = 3 ∧
    power_semigroup Nat.add 1 3 ≠ specFoldCopies Nat.add 1 3 := by
  refine ⟨?_, ?_, ?_⟩ <;> simp [power_semigroup, powerLoop, specFoldCopies]

/-! ## The `HashMap` semigroup instance (`src/traits.rs`)

A `HashMap` is modelled by its entry list (keys pairwise distinct); the
accumulation loop of `Semigroup::op` is translated step for step. -/

section HashMapSemigroup

variable {K V : Type} [DecidableEq K]

/-- One step of the accumulation loop of `Semigroup for HashMap`:
`h.entry(k.clone()).and_modify(|w| *w = V::op(w, v)).or_insert_with(|| v.clone())`
on the entry list of the map under construction. -/
def entryFold (op : V → V → V) (h : List (K × V)) (k : K) (v : V) : List (K × V) :=
  if h.any fun p => decide (p.1 = k) then
    h.map fun p => if p.1 = k then (p.1, op p.2 v) else p
  else h ++ [(k, v)]

/-- Rust `Semigroup::op for HashMap`: fold every entry of `x`, then every
entry of `y` (`x.iter().chain(y.iter())`), into a fresh empty map. -/
def hashMapOp (op : V → V → V) (x y : List (K × V)) : List (K × V) :=
  (x ++ y).foldl (fun h p => entryFold op h p.1 p.2) []

/-- Rust `Monoid::zero for HashMap`: the empty map. -/
def hashMapZero : List (K × V) := []

/-- Lookup in an entry list (the abstraction of `HashMap` indexing). -/
def lookupKV : List (K × V) → K → Option V
  | [], _ => none
  | p :: t, k => if p.1 = k then some p.2 else lookupKV t k

/-- The key list of an entry list. -/
def keysKV (h : List (K × V)) : List K := h.map Prod.fst

/-- The per-key combination of two optional values that the spec
describes: both present combine, one present survives unchanged. -/
def combineOpt (op : V → V → V) : Option V → Option V → Option V
  | some a, some b => some (op a b)
  | some a, none => some a
  | none, b => b

theorem lookupKV_eq_none {h : List (K × V)} {k : K} :
    lookupKV h k = none ↔ ∀ p ∈ h, p.1 ≠ k := by
  induction h with
  | nil => simp [lookupKV]
  | cons p t ih => by_cases hp : p.1 = k <;> simp [lookupKV, hp, ih]

theorem mem_keysKV_iff {h : List (K × V)} {k : K} :
    k ∈ keysKV h ↔ ¬lookupKV h k = none := by
  rw [lookupKV_eq_none]
  simp [keysKV]

theorem lookupKV_modify (op : V → V → V) (h : List (K × V)) (k : K) (v : V) (k' : K) :
    lookupKV (h.map fun p => if p.1 = k then (p.1, op p.2 v) else p) k' =
      if k' = k then (lookupKV h k).map fun w => op w v
      else lookupKV h k' := by
  induction h with
  | nil => by_cases hk : k' = k <;> simp [lookupKV, hk]
  | cons p t ih =>
    by_cases h1 : p.1 = k
    · by_cases h2 : k' = k
      · subst h2
        simp [lookupKV, h1, ih]
      · have h3 : ¬p.1 = k' := fun hc => h2 (hc.symm.trans h1)
        have h4 : ¬k = k' := fun hc => h2 hc.symm
        simp [lookupKV, h1, h3, h4, ih, h2]
    · by_cases h2 : p.1 = k'
      · have h3 : ¬k' = k := fun hc => h1 (h2.trans hc)
        simp [lookupKV, h1, h2, h3]
      · simp [lookupKV, h1, h2, ih]

theorem lookupKV_append (h1 h2 : List (K × V)) (k : K) :
    lookupKV (h1 ++ h2) k =
      match lookupKV h1 k with
      | some w => some w
      | none => lookupKV h2 k := by
  induction h1 with
  | nil => simp [lookupKV]
  | cons p t ih => by_cases hp : p.1 = k <;> simp [lookupKV, hp, ih]

theorem lookupKV_entryFold (op : V → V → V) (h : List (K × V)) (k : K) (v : V)
    (k' : K) :
    lookupKV (entryFold op h k v) k' =
      if k' = k then
        some (match lookupKV h k with | some w => op w v | none => v)
      else lookupKV h k' := by
  unfold entryFold
  by_cases hany : (h.any fun p => decide (p.1 = k)) = true
  · rw [if_pos hany, lookupKV_modify]
    obtain ⟨p, hp, hpk⟩ := List.any_eq_true.mp hany
    have : ¬lookupKV h k = none := by
      rw [lookupKV_eq_none]
      push_neg
      exact ⟨p, hp, of_decide_eq_true hpk⟩
    obtain ⟨w, hw⟩ := Option.ne_none_iff_exists'.mp this
    rw [hw]
    by_cases hk : k' = k <;> simp [hk]
  · have hnone : lookupKV h k = none := by
      rw [lookupKV_eq_none]
      intro p hp hpk
      exact hany (List.any_eq_true.mpr ⟨p, hp, decide_eq_true hpk⟩)
    rw [if_neg hany, lookupKV_append]
    by_cases hk : k' = k
    · subst hk
      rw [hnone]
      simp [lookupKV]
    · have h2 : ¬k = k' := fun hc => hk hc.symm
      cases hlk : lookupKV h k' <;> simp [lookupKV, h2, hk, hlk]

/-- The effect of one loop step on the value stored at key `k`. -/
def stepKey (op : V → V → V) (k : K) (a : Option V) (p : K × V) : Option V :=
  if p.1 = k then some (match a with | some w => op w p.2 | none => p.2) else a

/-- The value accumulated at key `k` after folding the entries of `l`
into a map whose current value at `k` is `acc`. -/
def accumulateKey (op : V → V → V) (k : K) (acc : Option V) (l : List (K × V)) :
    Option V :=
  l.foldl (stepKey op k) acc

theorem lookupKV_foldl (op : V → V → V) (l : List (K × V)) (h0 : List (K × V))
    (k : K) :
    lookupKV (l.foldl (fun h p => entryFold op h p.1 p.2) h0) k =
      accumulateKey op k (lookupKV h0 k) l := by
  induction l generalizing h0 with
  | nil => rfl
  | cons p t ih =>
    rw [List.foldl_cons, ih]
    unfold accumulateKey
    rw [List.foldl_cons]
    congr 1
    rw [lookupKV_entryFold]
    unfold stepKey
    by_cases hp : p.1 = k
    · rw [if_pos hp, if_pos hp.symm, hp]
    · rw [if_neg hp, if_neg fun hc => hp hc.symm]

theorem accumulateKey_of_none (op : V → V → V) (k : K) (t : List (K × V))
    (h : lookupKV t k = none) (a : Option V) : accumulateKey op k a t = a := by
  induction t generalizing a with
  | nil => rfl
  | cons p t ih =>
    rw [lookupKV] at h
    by_cases hp : p.1 = k
    · simp [hp] at h
    · unfold accumulateKey
      rw [List.foldl_cons]
      show accumulateKey op k (stepKey op k a p) t = a
      rw [show stepKey op k a p = a from if_neg hp]
      exact ih (by simpa [hp] using h) a

theorem accumulateKey_nodup (op : V → V → V) (k : K) (x : List (K × V))
    (hx : (keysKV x).Nodup) (acc : Option V) :
    accumulateKey op k acc x =
      match lookupKV x k with
      | none => acc
      | some v => some (match acc with | none => v | some w => op w v) := by
  induction x generalizing acc with
  | nil => rfl
  | cons p t ih =>
    have hx' := List.nodup_cons.mp (show (p.1 :: keysKV t).Nodup from hx)
    have hstep : accumulateKey op k acc (p :: t) =
        accumulateKey op k (stepKey op k acc p) t := rfl
    by_cases hp : p.1 = k
    · have htk : lookupKV t k = none := by
        rw [lookupKV_eq_none]
        intro q hq hqk
        exact hx'.1 (hp ▸ hqk ▸ List.mem_map_of_mem Prod.fst hq)
      rw [hstep, accumulateKey_of_none op k t htk]
      rw [show lookupKV (p :: t) k = some p.2 from if_pos hp]
      unfold stepKey
      rw [if_pos hp]
      cases acc <;> rfl
    · rw [hstep, show stepKey op k acc p = acc from if_neg hp,
        ih hx'.2 acc, show lookupKV (p :: t) k = lookupKV t k from if_neg hp]

theorem lookupKV_hashMapOp (op : V → V → V) (x y : List (K × V))
    (hx : (keysKV x).Nodup) (hy : (keysKV y).Nodup) (k : K) :
    lookupKV (hashMapOp op x y) k =
      combineOpt op (lookupKV x k) (lookupKV y k) := by
  unfold hashMapOp
  rw [lookupKV_foldl, show lookupKV ([] : List (K × V)) k = none from rfl]
  unfold accumulateKey
  rw [List.foldl_append]
  show accumulateKey op k (accumulateKey op k none x) y = _
  rw [accumulateKey_nodup op k x hx, accumulateKey_nodup op k y hy]
  cases hlx : lookupKV x k <;> cases hly : lookupKV y k <;> simp [combineOpt]

theorem entryFold_not_mem (op : V → V → V) (h : List (K × V)) (k : K) (v : V)
    (hk : k ∉ keysKV h) : entryFold op h k v = h ++ [(k, v)] := by
  unfold entryFold
  rw [if_neg]
  simp only [List.any_eq_true, not_exists]
  rintro p ⟨hp, hdec⟩
  exact hk (of_decide_eq_true hdec ▸ List.mem_map_of_mem Prod.fst hp)

theorem foldl_entryFold_disjoint (op : V → V → V) (l h0 : List (K × V))
    (hl : (keysKV l).Nodup) (hd : ∀ k ∈ keysKV l, k ∉ keysKV h0) :
    l.foldl (fun h p => entryFold op h p.1 p.2) h0 = h0 ++ l := by
  induction l generalizing h0 with
  | nil => simp
  | cons p t ih =>
    have hl' := List.nodup_cons.mp (show (p.1 :: keysKV t).Nodup from hl)
    rw [List.foldl_cons,
      entryFold_not_mem op h0 p.1 p.2 (hd p.1 (List.mem_cons_self p.1 (keysKV t)))]
    rw [ih (h0 ++ [(p.1, p.2)]) hl'.2 ?_]
    · simp
    · intro k hk hmem
      rw [show keysKV (h0 ++ [(p.1, p.2)]) = keysKV h0 ++ [p.1] from by
        simp [keysKV]] at hmem
      rcases List.mem_append.mp hmem with hin | hin
      · exact hd k (List.mem_cons_of_mem _ hk) hin
      · exact hl'.1 (List.mem_singleton.mp hin ▸ hk)

theorem hashMapOp_nil_left (op : V → V → V) (y : List (K × V))
    (hy : (keysKV y).Nodup) : hashMapOp op hashMapZero y = y := by
  unfold hashMapOp hashMapZero
  rw [List.nil_append]
  rw [foldl_entryFold_disjoint op y [] hy (by intro k _; simp [keysKV])]
  rfl

theorem hashMapOp_nil_right (op : V → V → V) (x : List (K × V))
    (hx : (keysKV x).Nodup) : hashMapOp op x hashMapZero = x := by
  unfold hashMapOp hashMapZero
  rw [List.append_nil]
  rw [foldl_entryFold_disjoint op x [] hx (by intro k _; simp [keysKV])]
  rfl

/-- Claim C9: For maps with semigroup values, `Semigroup::op` produces
exactly the union of the key sets; a key present in both maps to
`op` of `x`'s value with `y`'s value in that order, a key present in one
input keeps that input's value, and the empty map `zero()` is the
identity. -/
theorem hashMapOp_spec {K V : Type} [DecidableEq K] (op : V → V → V)
    (x y : List (K × V)) (hx : (keysKV x).Nodup) (hy : (keysKV y).Nodup) :
    (∀ k, lookupKV (hashMapOp op x y) k =
      combineOpt op (lookupKV x k) (lookupKV y k)) ∧
    (∀ k, k ∈ keysKV (hashMapOp op x y) ↔ k ∈ keysKV x ∨ k ∈ keysKV y) ∧
    hashMapOp op hashMapZero y = y ∧ hashMapOp op x hashMapZero = x := by
  refine ⟨fun k => lookupKV_hashMapOp op x y hx hy k, fun k => ?_,
    hashMapOp_nil_left op y hy, hashMapOp_nil_right op x hx⟩
  rw [mem_keysKV_iff, mem_keysKV_iff, mem_keysKV_iff,
    lookupKV_hashMapOp op x y hx hy k]
  cases hlx : lookupKV x k <;> cases hly : lookupKV y k <;> simp [combineOpt]

theorem hashMapOp_spec_witness :
    lookupKV (hashMapOp Nat.add [(1, 10), (2, 20)] [(2, 5), (3, 7)]) 2 =
      combineOpt Nat.add (lookupKV [(1, 10), (2, 20)] 2)
        (lookupKV [(2, 5), (3, 7)] 2) :=
  (hashMapOp_spec Nat.add [(1, 10), (2, 20)] [(2, 5), (3, 7)]
    (by decide) (by decide)).1 2

end HashMapSemigroup

end Ascb
